import Mathlib

/-!
Shallow embedding of the response-parsing and build-repair core of the
`rewrite-rs` repository (files `rlm/core/rust_utils.py` and
`rlm/core/rust_auto_fix.py`), together with proofs settling the frozen
claims C1 - C10.

Python strings are modelled as `List Char`.  Each regular-expression based
scanner of the source is hand-translated into a recursive character-list
scanner carrying the same leftmost-match / continue-after-match semantics
that `re.finditer` / `re.findall` / `re.search` give the patterns actually
used by the code.  Filesystem effects are made explicit: the project tree is
an association list from relative path to content, and the single fallible
file-write primitive takes an explicit failure schedule reflecting the
places where the Python `try` block can raise.
-/

namespace RewriteRs

abbrev Str := List Char

/-- Python regex `\s` / `str.strip` whitespace on the ASCII range. -/
def pyIsSpace (c : Char) : Bool :=
  c = ' ' || c = '\t' || c = '\n' || c = '\r' || c = '\x0b' || c = '\x0c'

/-- ASCII lower-casing, used to model `re.IGNORECASE` and `str.upper` comparisons. -/
def lcChar (c : Char) : Char :=
  if 'A' ≤ c ∧ c ≤ 'Z' then Char.ofNat (c.toNat + 32) else c

/-- `isPre p cs` holds when the literal `p` occurs at the start of `cs`. -/
def isPre : Str → Str → Bool
  | [], _ => true
  | _ :: _, [] => false
  | p :: ps, c :: cs => if p = c then isPre ps cs else false

/-- Case-insensitive variant of `isPre`. -/
def isPreCI : Str → Str → Bool
  | [], _ => true
  | _ :: _, [] => false
  | p :: ps, c :: cs => if lcChar p = lcChar c then isPreCI ps cs else false

/-- Python `p in cs` (contiguous substring search). -/
def hasSub (p : Str) : Str → Bool
  | [] => isPre p []
  | c :: t => isPre p (c :: t) || hasSub p t

/-- Case-insensitive substring search (models `re.search` on a literal with
`re.IGNORECASE`, and `word in code.upper()`). -/
def hasSubCI (p : Str) : Str → Bool
  | [] => isPreCI p []
  | c :: t => isPreCI p (c :: t) || hasSubCI p t

/-- Drop the literal `p` from the front of `cs`, if present. -/
def dropLit? (p : Str) (cs : Str) : Option Str :=
  if isPre p cs then some (cs.drop p.length) else none

/-- Case-insensitive `dropLit?`. -/
def dropLitCI? (p : Str) (cs : Str) : Option Str :=
  if isPreCI p cs then some (cs.drop p.length) else none

/-- Split `cs` at the first occurrence of the literal `p`:
returns the part before the occurrence and the part after it. -/
def splitSub? (p : Str) : Str → Option (Str × Str)
  | [] => if isPre p [] then some ([], []) else none
  | c :: t =>
    if isPre p (c :: t) then some ([], (c :: t).drop p.length)
    else
      match splitSub? p t with
      | some (a, b) => some (c :: a, b)
      | none => none

/-- Suffix after the first case-insensitive occurrence of `p` (drives the
lazy `.*?` gaps of the single-line placeholder patterns). -/
def subAfterCI? (p : Str) : Str → Option Str
  | [] => if isPreCI p [] then some [] else none
  | c :: t =>
    if isPreCI p (c :: t) then some ((c :: t).drop p.length)
    else subAfterCI? p t

/-- Python `str.strip()`. -/
def stripPy (cs : Str) : Str :=
  ((cs.dropWhile pyIsSpace).reverse.dropWhile pyIsSpace).reverse

/-- Python `str.split('\n')`. -/
def splitNL : Str → List Str
  | [] => [[]]
  | c :: t =>
    if c = '\n' then [] :: splitNL t
    else
      match splitNL t with
      | [] => [[c]]
      | h :: r => (c :: h) :: r

/-- Python newline join of a line list. -/
def joinNL : List Str → Str
  | [] => []
  | [l] => l
  | l :: ls => l ++ '\n' :: joinNL ls

/-- Python `max(blocks, key=len)`: first block of maximal length. -/
def maxByLen : List Str → Str
  | [] => []
  | x :: xs => xs.foldl (fun b m => if b.length < m.length then m else b) x

/-- Python dict assignment `d[k] = v` on an insertion-ordered association list. -/
def upsert : List (Str × Str) → Str → Str → List (Str × Str)
  | [], k, v => [(k, v)]
  | (k', v') :: t, k, v =>
    if k' = k then (k, v) :: t else (k', v') :: upsert t k v

/-- Python dict lookup `d.get(k)`. -/
def lookupA : List (Str × Str) → Str → Option Str
  | [], _ => none
  | (k', v') :: t, k => if k' = k then some v' else lookupA t k

abbrev FMap := List (Str × Str)

/-!
### `rust_utils.extract_rust_code` internals

`MIN_CODE_LENGTH = 100`; `PLACEHOLDER_PATTERNS` and `is_placeholder_code`
are from `rust_utils.py` lines 26-58.  The three bracketed patterns and the
`// Your converted.*code here` pattern use `.`/`.*?` without `re.DOTALL`, so
each must match inside a single line; the remaining patterns are literals,
searched case-insensitively anywhere in the candidate.
-/

/-- Sequential case-insensitive occurrence of the literals `parts` inside one
line (the meaning of `lit1.*?lit2.*?lit3` under `re.search` without DOTALL). -/
def seqCIGo : List Str → Str → Bool
  | [], _ => true
  | p :: ps, cs =>
    match subAfterCI? p cs with
    | some rest => seqCIGo ps rest
    | none => false

def greet1 : Str := "println!(\"Hello, world!\")".data
def greet2 : Str := "println!(\"Hello world\")".data

/-- `is_placeholder_code` (rust_utils.py lines 40-58): the eight
`PLACEHOLDER_PATTERNS` searches, the upper-cased word check, and the
short-code-with-println rule. -/
def is_placeholder_code (code : Str) : Bool :=
  ((splitNL code).any fun l => seqCIGo ["[YOUR".data, "CODE".data, "HERE]".data] l) ||
  ((splitNL code).any fun l => seqCIGo ["[COMPLETE".data, "CODE]".data] l) ||
  ((splitNL code).any fun l => seqCIGo ["[INCLUDE".data, "ALL]".data] l) ||
  hasSubCI greet1 code ||
  hasSubCI greet2 code ||
  ((splitNL code).any fun l => seqCIGo ["// Your converted".data, "code here".data] l) ||
  hasSubCI "// Example".data code ||
  hasSubCI "// Placeholder".data code ||
  (hasSubCI "[YOUR".data code || hasSubCI "[COMPLETE".data code ||
    hasSubCI "[INCLUDE".data code || hasSubCI "PLACEHOLDER".data code) ||
  (decide ((stripPy code).length < 100) && hasSub "println!".data code &&
    decide (code.count '\n' < 10))

/-!
### Fenced-block scanning

`re.findall(r'\x60\x60\x60TAG\s*\n(.*?)\x60\x60\x60', text, re.DOTALL)`:
after the opening fence and tag, the greedy `\s*` followed by the literal
`\n` selects the last newline of the maximal whitespace run (the following
lazy group puts no constraint on what comes next), and the lazy `(.*?)`
captures up to the nearest closing fence; `findall` then resumes scanning
after the closing fence.
-/

/-- Consume `\s*\n` greedily: walk the maximal whitespace run and return the
suffix after the last newline seen in it (`none` when the run has none). -/
def wsNL : Str → Option Str → Option Str
  | [], acc => acc
  | c :: t, acc =>
    if c = '\n' then wsNL t (some t)
    else if pyIsSpace c then wsNL t acc
    else acc

/-- Try to match one fenced block `\x60\x60\x60TAG\s*\n(.*?)\x60\x60\x60` at the current
position; returns the captured content and the suffix after the closing fence. -/
def blockAt? (tag : Str) (cs : Str) : Option (Str × Str) :=
  match dropLit? ("```".data ++ tag) cs with
  | none => none
  | some r1 =>
    match wsNL r1 none with
    | none => none
    | some r2 => splitSub? "```".data r2

def findBlocksGo (tag : Str) : Nat → Str → List Str
  | 0, _ => []
  | _ + 1, [] => []
  | fuel + 1, c :: t =>
    match blockAt? tag (c :: t) with
    | some (content, rest) => content :: findBlocksGo tag fuel rest
    | none => findBlocksGo tag fuel t

/-- All captures of the fenced-block pattern for `tag`, in text order. -/
def findBlocks (tag : Str) (cs : Str) : List Str :=
  findBlocksGo tag (cs.length + 1) cs

/-!
### `extract_from_text` (rust_utils.py lines 97-135)

Strategy order: rust-tagged fences filtered by length and placeholder;
untagged fences filtered by a keyword list plus the same filters; then the
`use ... fn main ... }` structural pattern.
-/

def isWordChar (c : Char) : Bool :=
  ('a' ≤ c ∧ c ≤ 'z') || ('A' ≤ c ∧ c ≤ 'Z') || ('0' ≤ c ∧ c ≤ '9') || c = '_'

/-- Greedy `(?:::\w+)*`. -/
def colonPath : Nat → Str → Str
  | 0, cs => cs
  | fuel + 1, cs =>
    match dropLit? "::".data cs with
    | none => cs
    | some r =>
      let w := r.takeWhile isWordChar
      if w = [] then cs else colonPath fuel (r.drop w.length)

/-- Match `fn\s+main\s*\(` at the current position, returning the suffix
after the opening parenthesis. -/
def fnMainAt? (cs : Str) : Option Str :=
  match dropLit? "fn".data cs with
  | none => none
  | some r1 =>
    let w := r1.takeWhile pyIsSpace
    if w = [] then none
    else
      match dropLit? "main".data (r1.drop w.length) with
      | none => none
      | some r2 =>
        match r2.dropWhile pyIsSpace with
        | '(' :: rest => some rest
        | _ => none

/-- Lazy scan for `fn\s+main\s*\(`. -/
def fnMainScan : Nat → Str → Option Str
  | 0, _ => none
  | _ + 1, [] => none
  | fuel + 1, c :: t =>
    match fnMainAt? (c :: t) with
    | some r => some r
    | none => fnMainScan fuel t

/-- Lazy scan for `\n\s*\x7d`, returning the suffix after the closing brace. -/
def closeScan : Nat → Str → Option Str
  | 0, _ => none
  | _ + 1, [] => none
  | fuel + 1, c :: t =>
    if c = '\n' then
      match t.dropWhile pyIsSpace with
      | '\x7d' :: rest => some rest
      | _ => closeScan fuel t
    else closeScan fuel t

/-- Tail requirement `\s*(?:\n\n|\Z)` after the closing brace. -/
def tailOk (cs : Str) : Bool :=
  let w := cs.takeWhile pyIsSpace
  cs.drop w.length = [] || hasSub "\n\n".data w

/-- Iterate `closeScan` until the tail requirement holds (the lazy
`.*?\n\s*\}` extends on a failed tail). -/
def closeLoop : Nat → Str → Option Str
  | 0, _ => none
  | fuel + 1, cs =>
    match closeScan (cs.length + 1) cs with
    | none => none
    | some rest => if tailOk rest then some rest else closeLoop fuel rest

/-- Match the `use_to_end_pattern` of rust_utils.py line 128 anchored at the
current position; returns the suffix after the matched closing brace. -/
def useAt? (cs : Str) : Option Str :=
  match dropLit? "use".data cs with
  | none => none
  | some r1 =>
    let w := r1.takeWhile pyIsSpace
    if w = [] then none
    else
      let r2 := r1.drop w.length
      let wd := r2.takeWhile isWordChar
      if wd = [] then none
      else
        let r3 := colonPath r2.length (r2.drop wd.length)
        match r3.dropWhile pyIsSpace with
        | ';' :: r5 =>
          match fnMainScan (r5.length + 1) r5 with
          | none => none
          | some r6 =>
            match (r6.dropWhile fun c => !(c = ')')) with
            | ')' :: r8 =>
              match r8.dropWhile pyIsSpace with
              | '\x7b' :: r10 => closeLoop (r10.length + 1) r10
              | _ => none
            | _ => none
        | _ => none

/-- `re.search` of the `use_to_end_pattern`: leftmost anchor position that
completes; the capture runs from the anchor to the matched closing brace. -/
def useScan : Nat → Str → Option Str
  | 0, _ => none
  | _ + 1, [] => none
  | fuel + 1, c :: t =>
    match useAt? (c :: t) with
    | some rest => some ((c :: t).take ((c :: t).length - rest.length))
    | none => useScan fuel t

def keywords : List Str :=
  ["fn ".data, "let ".data, "use ".data, "impl ".data, "struct ".data,
   "enum ".data, "mod ".data]

/-- `extract_from_text` (rust_utils.py lines 97-135). -/
def extract_from_text (text : Str) : Option Str :=
  let ms := findBlocks "rust".data text
  let real_code := ms.filter fun m =>
    decide (100 < (stripPy m).length) && !(is_placeholder_code m)
  if real_code = [] then
    let gms := findBlocks [] text
    let rust_blocks := gms.filterMap fun c0 =>
      if (keywords.any fun k => hasSub k c0) &&
         decide (100 < (stripPy c0).length) && !(is_placeholder_code c0)
      then some (stripPy c0) else none
    if rust_blocks = [] then
      match useScan (text.length + 1) text with
      | some g =>
        let pc := stripPy g
        if decide (100 < pc.length) && !(is_placeholder_code pc) then some pc
        else none
      | none => none
    else some (maxByLen rust_blocks)
  else some (stripPy (maxByLen real_code))

/-!
### `update_cargo_dependencies` (rust_utils.py lines 307-373)

Pure content transformation of the manifest text.  The filesystem read and
write around it only move this text; `if not dependencies: return True`
leaves the manifest untouched.
-/

def depHdr : Str := "[dependencies]".data

/-- The line `f-string {name} = "{value}"` appended for a missing dependency. -/
def depLine (nv : Str × Str) : Str :=
  nv.1 ++ " = \"".data ++ nv.2 ++ "\"".data

/-- The new dependency lines: one per extracted dependency whose name does
not occur (as a substring) in any line of the original manifest. -/
def addDepLines (origLines : List Str) (deps : List (Str × Str)) : List Str :=
  deps.filterMap fun nv =>
    if origLines.any (fun l => hasSub nv.1 l) then none else some (depLine nv)

/-- Rebuild the line list, inserting `ins` right after the first line that
strips to `[dependencies]` (the `dependencies_added` flag of the source). -/
def insertAfterHdr : List Str → List Str → Bool → List Str
  | [], _, _ => []
  | l :: t, ins, added =>
    if stripPy l = depHdr ∧ added = false then l :: (ins ++ insertAfterHdr t ins true)
    else l :: insertAfterHdr t ins added

/-- `update_cargo_dependencies` as a manifest-content transformation. -/
def update_cargo_dependencies (content : Str) (deps : List (Str × Str)) : Str :=
  if deps = [] then content
  else if hasSub depHdr content then
    joinNL (insertAfterHdr (splitNL content) (addDepLines (splitNL content) deps) false)
  else
    content ++ '\n' :: depHdr ++ '\n' ::
      (deps.foldl (fun acc nv => acc ++ depLine nv ++ ['\n']) [])

/-!
### File writes (`rust_auto_fix.write_file_content`, `rust_utils.write_rust_file`)

Both functions run `mkdir(parents=True)`, then `open(path, 'w')` — which
truncates the file — then `f.write(content)`, returning `False` when any of
those raises.  The failure schedule says which step (if any) raises; a write
failure after `k` characters leaves the truncated file holding the first `k`
characters of the new content (Python text-file semantics of mode `w`).
-/

inductive WriteOutcome where
  | ok : WriteOutcome
  | failMkdir : WriteOutcome
  | failOpen : WriteOutcome
  | failWrite : Nat → WriteOutcome
deriving DecidableEq

/-- `write_file_content(project_dir, relative_path, content)` over an
explicit project tree and failure schedule. -/
def write_file_content (fs : FMap) (path content : Str) : WriteOutcome → Bool × FMap
  | .failMkdir => (false, fs)
  | .failOpen => (false, fs)
  | .failWrite k => (false, upsert fs path (content.take k))
  | .ok => (true, upsert fs path content)

/-- `write_rust_file(code, output_path)` performs the same mkdir / open-w /
write sequence, so it has the same state semantics. -/
def write_rust_file (fs : FMap) (path code : Str) (o : WriteOutcome) : Bool × FMap :=
  write_file_content fs path code o

/-!
### `extract_file_modifications` (rust_auto_fix.py lines 134-192)

Four sequential stages mutating one dict:
pattern 1 `FILE:\s*([^\n]+)\s*\n` + fence (IGNORECASE, DOTALL);
pattern 2 canonical-name mention before a fence (DOTALL, case-sensitive);
pattern 3 rust fences, only `if not modifications`;
pattern 4 the first toml fence, always.
-/

/-- Continuation of pattern 1 from a candidate start of the `([^\n]+)`
group: the greedy group takes the rest of the line, then `\s*\n` resolves
to the last newline of the following whitespace run, which must be
immediately followed by the opening fence (shortening the group can only
shift whitespace into `\s*`, which neither changes whether the match
succeeds nor the stripped capture). -/
def p1Cont? (s : Str) : Option ((Str × Str) × Str) :=
  let path := s.takeWhile fun c => !(c = '\n')
  if path = [] then none
  else
    match wsNL (s.drop path.length) none with
    | none => none
    | some r3 =>
      match dropLit? "```".data r3 with
      | none => none
      | some r4 =>
        let t1 := match dropLitCI? "rust".data r4 with
          | some r => wsNL r none
          | none => none
        let t2 := match dropLitCI? "toml".data r4 with
          | some r => wsNL r none
          | none => none
        let body := match t1 with
          | some r => some r
          | none => match t2 with
            | some r => some r
            | none => wsNL r4 none
        match body with
        | none => none
        | some r6 =>
          match splitSub? "```".data r6 with
          | none => none
          | some (content, rest) => some ((path, content), rest)

/-- Candidate start positions of the `([^\n]+)` group after `FILE:`, in
ascending text order: the greedy `\s*` may leave the group starting at any
non-newline position of the whitespace run (a newline can never start
`[^\n]+`), or at the first non-whitespace character after the run. -/
def p1Starts : Str → List Str
  | [] => []
  | c :: t =>
    if pyIsSpace c then
      if c = '\n' then p1Starts t else (c :: t) :: p1Starts t
    else [c :: t]

/-- First candidate (in the given order) on which `f` succeeds. -/
def firstSome? {α : Type} (f : Str → Option α) : List Str → Option α
  | [] => none
  | x :: xs =>
    match f x with
    | some v => some v
    | none => firstSome? f xs

/-- Match pattern 1 at the current position.  The greedy `\s*` after
`FILE:` prefers the longest whitespace consumption, so the candidate
starts are tried from the latest position backwards (the path may sit on a
later line than the `FILE:` marker). -/
def p1At? (cs : Str) : Option ((Str × Str) × Str) :=
  match dropLitCI? "FILE:".data cs with
  | none => none
  | some r0 => firstSome? p1Cont? (p1Starts r0).reverse

def p1Go : Nat → Str → List (Str × Str)
  | 0, _ => []
  | _ + 1, [] => []
  | fuel + 1, c :: t =>
    match p1At? (c :: t) with
    | some ((path, content), rest) => (stripPy path, stripPy content) :: p1Go fuel rest
    | none => p1Go fuel t

/-- Stage 1: the dict after processing every pattern-1 match in order. -/
def p1Mods (r : Str) : FMap :=
  (p1Go (r.length + 1) r).foldl (fun m pc => upsert m pc.1 pc.2) []

/-- The three canonical-path alternatives of pattern 2, in alternation order. -/
def p2Lit? (cs : Str) : Option Str :=
  match dropLit? "src/main.rs".data cs with
  | some r => some r
  | none =>
    match dropLit? "Cargo.toml".data cs with
    | some r => some r
    | none => dropLit? "src/lib.rs".data cs

/-- Continuation `\n\x60\x60\x60(?:rust|toml)?\s*\n(.*?)\x60\x60\x60` attempted at one gap
position (the newline must sit right here). -/
def p2Here? (cs : Str) : Option (Str × Str) :=
  match cs with
  | '\n' :: t =>
    match dropLit? "```".data t with
    | none => none
    | some r4 =>
      let t1 := match dropLit? "rust".data r4 with
        | some r => wsNL r none
        | none => none
      let t2 := match dropLit? "toml".data r4 with
        | some r => wsNL r none
        | none => none
      let body := match t1 with
        | some r => some r
        | none => match t2 with
          | some r => some r
          | none => wsNL r4 none
      match body with
      | none => none
      | some r6 => splitSub? "```".data r6
  | _ => none

/-- Lazy `.*?` gap of pattern 2: try the continuation at each position. -/
def p2Gap : Nat → Str → Option (Str × Str)
  | 0, _ => none
  | _ + 1, [] => none
  | fuel + 1, c :: t =>
    match p2Here? (c :: t) with
    | some res => some res
    | none => p2Gap fuel t

/-- Match pattern 2 at the current position: returns the whole matched
region (for the `match.group(0)[:100]` context), the capture, and the rest. -/
def p2At? (cs : Str) : Option (Str × Str × Str) :=
  match p2Lit? cs with
  | none => none
  | some afterLit =>
    match p2Gap (afterLit.length + 1) afterLit with
    | none => none
    | some (content, rest) =>
      some (cs.take (cs.length - rest.length), content, rest)

def p2Go : Nat → Str → List (Str × Str)
  | 0, _ => []
  | _ + 1, [] => []
  | fuel + 1, c :: t =>
    match p2At? (c :: t) with
    | some (region, content, rest) => (region.take 100, content) :: p2Go fuel rest
    | none => p2Go fuel t

/-- Key inference from the first 100 characters of the match
(`if 'main.rs' in context / elif 'Cargo.toml' / elif 'lib.rs'`). -/
def p2Key? (context : Str) : Option Str :=
  if hasSub "main.rs".data context then some "src/main.rs".data
  else if hasSub "Cargo.toml".data context then some "Cargo.toml".data
  else if hasSub "lib.rs".data context then some "src/lib.rs".data
  else none

/-- Stage 2 (always runs): fold every pattern-2 match into the dict. -/
def p2Step (r : Str) (m : FMap) : FMap :=
  (p2Go (r.length + 1) r).foldl
    (fun m pc =>
      match p2Key? pc.1 with
      | some k => upsert m k (stripPy pc.2)
      | none => m) m

/-- Stage 3 (`if not modifications`): longest rust fence to `src/main.rs`. -/
def p3Step (r : Str) (m : FMap) : FMap :=
  if m = [] then
    match findBlocks "rust".data r with
    | [] => []
    | b :: bs => upsert [] "src/main.rs".data (stripPy (maxByLen (b :: bs)))
  else m

/-- Stage 4 (always runs): first toml fence to `Cargo.toml`. -/
def p4Step (r : Str) (m : FMap) : FMap :=
  match findBlocks "toml".data r with
  | [] => m
  | b :: _ => upsert m "Cargo.toml".data (stripPy b)

/-- `extract_file_modifications` (rust_auto_fix.py lines 134-192). -/
def extract_file_modifications (r : Str) : FMap :=
  p4Step r (p3Step r (p2Step r (p1Mods r)))

/-!
### `auto_fix_rust_project` (rust_auto_fix.py lines 277-375)

The build toolchain, the prompt construction (which walks the on-disk
project) and the oracle round-trip are the external boundary; they are an
`Env`.  The Python local `output` starts unbound and is assigned on every
loop pass, so the final `return False, output, iteration` is modelled with
an `Option` that yields `UnboundLocalError` when still unset.  `iteration`
is a Python int, modelled as `Int` so that non-positive budgets behave as
in the source; the loop runs `max_iterations.toNat` times.  The third
result component counts build invocations.
-/

inductive PyErr where
  | unboundLocalError : PyErr
deriving DecidableEq

structure Env where
  build : FMap → Int → Bool × Str
  oracle : FMap → Str → Int → Int → Except Str Str

/-- Apply a PatchSet: the orchestrator writes every entry (a failed write is
only reported, so the surviving state transition is the dict fold). -/
def applyMods (fs : FMap) (mods : FMap) : FMap :=
  mods.foldl (fun a kv => upsert a kv.1 kv.2) fs

def autoFixGo (env : Env) (maxIter : Int) :
    Nat → FMap → Int → Option Str → Nat →
    (Except PyErr (Bool × Str × Int)) × FMap × Nat
  | 0, fs, it, out?, bc =>
    (match out? with
     | none => .error .unboundLocalError
     | some o => .ok (false, o, it), fs, bc)
  | fuel + 1, fs, it, _, bc =>
    match env.build fs (it + 1) with
    | (true, output) => (.ok (true, output, it + 1), fs, bc + 1)
    | (false, output) =>
      if it + 1 < maxIter then
        match env.oracle fs output (it + 1) maxIter with
        | .error _ => autoFixGo env maxIter fuel fs (it + 1) (some output) (bc + 1)
        | .ok resp =>
          match extract_file_modifications resp with
          | [] => autoFixGo env maxIter fuel fs (it + 1) (some output) (bc + 1)
          | m :: ms =>
            autoFixGo env maxIter fuel (applyMods fs (m :: ms)) (it + 1)
              (some output) (bc + 1)
      else autoFixGo env maxIter fuel fs (it + 1) (some output) (bc + 1)

/-- `auto_fix_rust_project(rlm, project_dir, max_iterations)`: result,
final project tree, and number of build invocations performed. -/
def auto_fix_rust_project (env : Env) (maxIter : Int) (fs : FMap) :
    (Except PyErr (Bool × Str × Int)) × FMap × Nat :=
  autoFixGo env maxIter maxIter.toNat fs 0 none 0

/-- The oracle transform that replaces every raised exception by an empty
reply (whose extracted PatchSet is empty): the behaviour the `except`
branch of the source claims to be equivalent to. -/
def oracleErrToEmpty (env : Env) : Env :=
  { env with
    oracle := fun fs o i m =>
      match env.oracle fs o i m with
      | .error _ => .ok []
      | .ok r => .ok r }

/-- Stub environment: every build fails with an empty transcript, the
oracle always answers with the empty (unparsable) reply. -/
def stubEnv : Env :=
  { build := fun _ _ => (false, [])
    oracle := fun _ _ _ _ => .ok [] }

/-! ## Lemmas about the string primitives -/

theorem isPre_iff : ∀ (p cs : Str), isPre p cs = true ↔ ∃ b, cs = p ++ b
  | [], cs => by simp [isPre]
  | _ :: _, [] => by simp [isPre]
  | x :: p, c :: t => by
    simp only [isPre]
    by_cases h : x = c
    · subst h
      rw [if_pos rfl, isPre_iff p t]
      constructor
      · rintro ⟨b, rfl⟩; exact ⟨b, rfl⟩
      · rintro ⟨b, hb⟩
        injection hb with _ h2
        exact ⟨b, h2⟩
    · rw [if_neg h]
      constructor
      · intro hf; exact (Bool.false_ne_true hf).elim
      · rintro ⟨b, hb⟩
        injection hb with h1 _
        exact absurd h1.symm h

theorem hasSub_iff (p : Str) : ∀ cs : Str, hasSub p cs = true ↔ ∃ a b, cs = a ++ p ++ b := by
  intro cs
  induction cs with
  | nil =>
    simp only [hasSub, isPre_iff]
    constructor
    · rintro ⟨b, hb⟩; exact ⟨[], b, by simpa using hb⟩
    · rintro ⟨a, b, hab⟩
      rcases List.append_eq_nil.mp hab.symm with ⟨h1, h2⟩
      rcases List.append_eq_nil.mp h1 with ⟨h3, h4⟩
      exact ⟨[], by simp [h4, h2]⟩
  | cons c t ih =>
    simp only [hasSub, Bool.or_eq_true, isPre_iff, ih]
    constructor
    · rintro (⟨b, hb⟩ | ⟨a, b, hab⟩)
      · exact ⟨[], b, by simpa using hb⟩
      · exact ⟨c :: a, b, by simp [hab]⟩
    · rintro ⟨a, b, hab⟩
      cases a with
      | nil => exact Or.inl ⟨b, by simpa using hab⟩
      | cons a0 as =>
        right
        refine ⟨as, b, ?_⟩
        have : c :: t = a0 :: (as ++ p ++ b) := by simpa using hab
        injection this with _ h2

theorem hasSub_mid (a p b : Str) : hasSub p (a ++ p ++ b) = true :=
  (hasSub_iff p _).mpr ⟨a, b, rfl⟩

theorem hasSub_append_left (p l r : Str) (h : hasSub p l = true) :
    hasSub p (l ++ r) = true := by
  obtain ⟨a, b, rfl⟩ := (hasSub_iff p l).mp h
  exact (hasSub_iff p _).mpr ⟨a, b ++ r, by simp⟩

theorem hasSub_append_right (p l r : Str) (h : hasSub p r = true) :
    hasSub p (l ++ r) = true := by
  obtain ⟨a, b, rfl⟩ := (hasSub_iff p r).mp h
  exact (hasSub_iff p _).mpr ⟨l ++ a, b, by simp⟩

theorem isPreCI_append : ∀ (p b : Str), isPreCI p (p ++ b) = true
  | [], _ => rfl
  | x :: p, b => by simp [isPreCI, isPreCI_append p b]

theorem hasSubCI_of_isPreCI (p cs : Str) (h : isPreCI p cs = true) :
    hasSubCI p cs = true := by
  cases cs with
  | nil => simpa [hasSubCI] using h
  | cons c t => simp [hasSubCI, h]

theorem hasSubCI_mid : ∀ (a p b : Str), hasSubCI p (a ++ p ++ b) = true
  | [], p, b => by
    refine hasSubCI_of_isPreCI p _ ?_
    simpa using isPreCI_append p b
  | a0 :: as, p, b => by
    have := hasSubCI_mid as p b
    simp only [List.cons_append, hasSubCI, Bool.or_eq_true]
    exact Or.inr this

/-! ## Lemmas about line splitting and joining -/

theorem splitNL_ne_nil : ∀ cs : Str, splitNL cs ≠ []
  | [] => by simp [splitNL]
  | c :: t => by
    simp only [splitNL]
    by_cases h : c = '\n'
    · simp [h]
    · rw [if_neg h]
      cases hsp : splitNL t <;> simp

theorem joinNL_splitNL : ∀ cs : Str, joinNL (splitNL cs) = cs
  | [] => rfl
  | c :: t => by
    have ih := joinNL_splitNL t
    by_cases h : c = '\n'
    · subst h
      simp only [splitNL, if_pos rfl]
      cases hsp : splitNL t with
      | nil => exact absurd hsp (splitNL_ne_nil t)
      | cons h0 r =>
        rw [hsp] at ih
        show joinNL ([] :: h0 :: r) = '\n' :: t
        show ([] : Str) ++ '\n' :: joinNL (h0 :: r) = '\n' :: t
        simp [ih]
    · simp only [splitNL, if_neg h]
      cases hsp : splitNL t with
      | nil => exact absurd hsp (splitNL_ne_nil t)
      | cons h0 r =>
        rw [hsp] at ih
        cases r with
        | nil =>
          show (c :: h0 : Str) = c :: t
          simp only [joinNL] at ih
          rw [ih]
        | cons r0 rs =>
          show (c :: h0 : Str) ++ '\n' :: joinNL (r0 :: rs) = c :: t
          simp only [joinNL] at ih
          simp [← ih]

theorem mem_joinNL_decomp : ∀ (L : List Str) (l : Str), l ∈ L →
    ∃ a b, joinNL L = a ++ l ++ b
  | [], l, h => absurd h (List.not_mem_nil l)
  | h0 :: t, l, hmem => by
    rcases List.mem_cons.mp hmem with rfl | htail
    · cases t with
      | nil => exact ⟨[], [], by simp [joinNL]⟩
      | cons t0 ts => exact ⟨[], '\n' :: joinNL (t0 :: ts), by simp [joinNL]⟩
    · obtain ⟨a, b, hab⟩ := mem_joinNL_decomp t l htail
      cases t with
      | nil => exact absurd htail (List.not_mem_nil l)
      | cons t0 ts =>
        refine ⟨h0 ++ '\n' :: a, b, ?_⟩
        show h0 ++ '\n' :: joinNL (t0 :: ts) = _
        rw [hab]
        simp

theorem hasSub_joinNL_of_mem (L : List Str) (l p : Str) (hmem : l ∈ L)
    (h : hasSub p l = true) : hasSub p (joinNL L) = true := by
  obtain ⟨a, b, hl⟩ := (hasSub_iff p l).mp h
  obtain ⟨x, y, hxy⟩ := mem_joinNL_decomp L l hmem
  refine (hasSub_iff p _).mpr ⟨x ++ a, b ++ y, ?_⟩
  rw [hxy, hl]
  simp

theorem hasSub_of_isPre (p cs : Str) (h : isPre p cs = true) : hasSub p cs = true := by
  cases cs with
  | nil => simpa [hasSub] using h
  | cons c t => simp [hasSub, h]

theorem isPre_firstLine : ∀ (p : Str), ('\n' : Char) ∉ p → ∀ (cs : Str),
    isPre p cs = true → ∀ h r, splitNL cs = h :: r → isPre p h = true
  | [], _, _, _, _, _, _ => rfl
  | x :: p, hnl, cs, hpre, h, r, hsp => by
    cases cs with
    | nil => simp [isPre] at hpre
    | cons c t =>
      simp only [isPre] at hpre
      by_cases hxc : x = c
      · subst hxc
        rw [if_pos rfl] at hpre
        have hx : ¬ x = '\n' := fun hh => hnl (hh ▸ List.mem_cons_self x p)
        simp only [splitNL, if_neg hx] at hsp
        cases hsp' : splitNL t with
        | nil => exact absurd hsp' (splitNL_ne_nil t)
        | cons h0 r0 =>
          rw [hsp'] at hsp
          injection hsp with hh _
          subst hh
          simp only [isPre, if_pos rfl]
          exact isPre_firstLine p (fun hm => hnl (List.mem_cons_of_mem x hm)) t hpre h0 r0 hsp'
      · rw [if_neg hxc] at hpre
        exact absurd hpre (by simp)

theorem hasSub_to_line : ∀ (cs p : Str), ('\n' : Char) ∉ p →
    hasSub p cs = true → ∃ l ∈ splitNL cs, hasSub p l = true
  | [], p, _, h => by
    refine ⟨[], by simp [splitNL], ?_⟩
    simpa [hasSub] using h
  | c :: t, p, hnl, h => by
    simp only [hasSub, Bool.or_eq_true] at h
    rcases h with hpre | htail
    · cases hsp : splitNL (c :: t) with
      | nil => exact absurd hsp (splitNL_ne_nil _)
      | cons h0 r0 =>
        exact ⟨h0, by simp [hsp],
          hasSub_of_isPre p h0 (isPre_firstLine p hnl (c :: t) hpre h0 r0 hsp)⟩
    · obtain ⟨l, hl, hsl⟩ := hasSub_to_line t p hnl htail
      by_cases hc : c = '\n'
      · subst hc
        exact ⟨l, by simp [splitNL, hl], hsl⟩
      · cases hsp : splitNL t with
        | nil => exact absurd hsp (splitNL_ne_nil t)
        | cons h0 r0 =>
          rw [hsp] at hl
          rcases List.mem_cons.mp hl with rfl | hmem
          · refine ⟨c :: l, ?_, by simp [hasSub, hsl]⟩
            simp [splitNL, if_neg hc, hsp]
          · refine ⟨l, ?_, hsl⟩
            simp [splitNL, if_neg hc, hsp, hmem]

theorem stripPy_decomp (cs : Str) : ∃ a b, cs = a ++ stripPy cs ++ b := by
  refine ⟨cs.takeWhile pyIsSpace,
    ((cs.dropWhile pyIsSpace).reverse.takeWhile pyIsSpace).reverse, ?_⟩
  have h1 : cs = cs.takeWhile pyIsSpace ++ cs.dropWhile pyIsSpace :=
    (List.takeWhile_append_dropWhile ..).symm
  have h2 : (cs.dropWhile pyIsSpace).reverse =
      (cs.dropWhile pyIsSpace).reverse.takeWhile pyIsSpace ++
      (cs.dropWhile pyIsSpace).reverse.dropWhile pyIsSpace :=
    (List.takeWhile_append_dropWhile ..).symm
  have h3 : cs.dropWhile pyIsSpace =
      stripPy cs ++ ((cs.dropWhile pyIsSpace).reverse.takeWhile pyIsSpace).reverse := by
    have h4 := congrArg List.reverse h2
    rw [List.reverse_reverse] at h4
    conv_lhs => rw [h4, List.reverse_append]
    rfl
  conv_lhs => rw [h1, h3]
  rw [List.append_assoc]

/-! ## Lemmas about the dict model -/

theorem lookupA_upsert_self : ∀ (m : FMap) (k v : Str),
    lookupA (upsert m k v) k = some v
  | [], k, v => by simp [upsert, lookupA]
  | (k', v') :: t, k, v => by
    by_cases h : k' = k
    · simp [upsert, h, lookupA]
    · simp [upsert, h, lookupA, lookupA_upsert_self t k v]

/-! ## Lemmas about the manifest merge -/

theorem insertAfterHdr_nil_ins : ∀ (L : List Str) (b : Bool),
    insertAfterHdr L [] b = L
  | [], _ => rfl
  | l :: t, b => by
    by_cases h : stripPy l = depHdr ∧ b = false
    · simp [insertAfterHdr, h, insertAfterHdr_nil_ins t]
    · simp [insertAfterHdr, h, insertAfterHdr_nil_ins t]

theorem mem_insertAfterHdr : ∀ (L : List Str) (l : Str), l ∈ L →
    ∀ (ins : List Str) (b : Bool), l ∈ insertAfterHdr L ins b
  | [], l, h, _, _ => absurd h (List.not_mem_nil l)
  | l0 :: t, l, hmem, ins, b => by
    rcases List.mem_cons.mp hmem with rfl | htail
    · by_cases h : stripPy l = depHdr ∧ b = false
      · simp [insertAfterHdr, h]
      · simp [insertAfterHdr, h]
    · by_cases h : stripPy l0 = depHdr ∧ b = false
      · simp only [insertAfterHdr, if_pos h]
        exact List.mem_cons_of_mem _ (List.mem_append_right _
          (mem_insertAfterHdr t l htail ins true))
      · simp only [insertAfterHdr, if_neg h]
        exact List.mem_cons_of_mem _ (mem_insertAfterHdr t l htail ins b)

theorem ins_mem_insertAfterHdr : ∀ (L : List Str),
    (∃ l0 ∈ L, stripPy l0 = depHdr) → ∀ (ins : List Str) (x : Str), x ∈ ins →
    x ∈ insertAfterHdr L ins false
  | [], h, _, _, _ => by simp at h
  | l0 :: t, hex, ins, x, hx => by
    by_cases h : stripPy l0 = depHdr
    · have heq : insertAfterHdr (l0 :: t) ins false =
          l0 :: (ins ++ insertAfterHdr t ins true) := by
        simp [insertAfterHdr, h]
      rw [heq]
      exact List.mem_cons_of_mem _ (List.mem_append_left _ hx)
    · have heq : insertAfterHdr (l0 :: t) ins false =
          l0 :: insertAfterHdr t ins false := by
        simp [insertAfterHdr, h]
      rw [heq]
      obtain ⟨l1, hl1, hs1⟩ := hex
      rcases List.mem_cons.mp hl1 with rfl | hmem
      · exact absurd hs1 h
      · exact List.mem_cons_of_mem _ (ins_mem_insertAfterHdr t ⟨l1, hmem, hs1⟩ ins x hx)

theorem insertAfterHdr_no_hdr : ∀ (L : List Str),
    (∀ l ∈ L, stripPy l ≠ depHdr) → ∀ (ins : List Str) (b : Bool),
    insertAfterHdr L ins b = L
  | [], _, _, _ => rfl
  | l0 :: t, hno, ins, b => by
    have h' : ¬ (stripPy l0 = depHdr ∧ b = false) :=
      fun hh => hno l0 (List.mem_cons_self l0 t) hh.1
    simp only [insertAfterHdr, if_neg h']
    rw [insertAfterHdr_no_hdr t (fun l hl => hno l (List.mem_cons_of_mem l0 hl)) ins b]

theorem addDepLines_eq_nil (origLines : List Str) :
    ∀ (deps : List (Str × Str)),
    (∀ nv ∈ deps, (origLines.any fun l => hasSub nv.1 l) = true) →
    addDepLines origLines deps = []
  | [], _ => rfl
  | nv :: t, h => by
    have h0 := h nv (List.mem_cons_self nv t)
    simp only [addDepLines, List.filterMap_cons, if_pos h0]
    exact addDepLines_eq_nil origLines t
      (fun nv' hnv' => h nv' (List.mem_cons_of_mem nv hnv'))

theorem mem_addDepLines (origLines : List Str) (deps : List (Str × Str))
    (nv : Str × Str) (hmem : nv ∈ deps)
    (h : (origLines.any fun l => hasSub nv.1 l) = false) :
    depLine nv ∈ addDepLines origLines deps := by
  refine List.mem_filterMap.mpr ⟨nv, hmem, ?_⟩
  simp [h]

theorem foldl_depLines : ∀ (deps : List (Str × Str)) (a : Str),
    deps.foldl (fun acc nv => acc ++ depLine nv ++ ['\n']) a =
      a ++ (deps.map fun nv => depLine nv ++ ['\n']).flatten
  | [], a => by simp
  | nv :: t, a => by
    simp only [List.foldl_cons, List.map_cons, List.flatten_cons]
    rw [foldl_depLines t]
    simp

theorem mem_join_decomp {α : Type} : ∀ (L : List (List α)) (x : List α), x ∈ L →
    ∃ a b, L.flatten = a ++ x ++ b
  | [], x, h => absurd h (List.not_mem_nil x)
  | l0 :: t, x, hmem => by
    rcases List.mem_cons.mp hmem with rfl | htail
    · exact ⟨[], t.flatten, by simp⟩
    · obtain ⟨a, b, hab⟩ := mem_join_decomp t x htail
      exact ⟨l0 ++ a, b, by simp [hab]⟩

/-! ## Claim C3 -/

/-- The test response of the end-to-end scenario. -/
def c3resp : Str := "FILE: src/main.rs\n```rust\nfn main() \x7b\x7d\n```".data

/-- Claim C3: on the response consisting of the line `FILE: src/main.rs`
followed by a rust-tagged fenced block containing `fn main() \x7b\x7d`,
`extract_file_modifications` returns exactly the one-entry mapping from
`src/main.rs` to the trimmed full content `fn main() \x7b\x7d`. -/
theorem claim_C3 :
    extract_file_modifications c3resp =
      [("src/main.rs".data, "fn main() \x7b\x7d".data)] := by
  decide

/-! ## Claim C4 -/

/-- A response on which the explicit-path strategy produces an entry and the
contextual-path strategy nevertheless adds another one. -/
def c4resp : Str :=
  "FILE: src/foo.rs\n```rust\na\n```\nsee src/main.rs\n```rust\nb\n```".data

/-- Claim C4, counterexample: the explicit-path strategy (pattern 1)
produces a non-empty dict, yet the contextual-path strategy (pattern 2)
still fires and adds the entry `src/main.rs`, so it is not gated on the
earlier strategies having found nothing. -/
theorem claim_C4_counterexample :
    p1Mods c4resp = [("src/foo.rs".data, "a".data)] ∧
    p2Step c4resp (p1Mods c4resp) =
      [("src/foo.rs".data, "a".data), ("src/main.rs".data, "b".data)] ∧
    p2Step c4resp (p1Mods c4resp) ≠ p1Mods c4resp := by
  exact ⟨by decide, by decide, by decide⟩

/-- Claim C4, amended: only the single-file fallback (pattern 3) is gated
on the earlier strategies having produced no entries — whenever the
explicit-path and contextual-path strategies produced any entry, the result
of `extract_file_modifications` is their dict passed only through the
always-running manifest stage; the contextual-path strategy itself always
runs and may add or change entries. -/
theorem claim_C4_amended (r : Str) (h : p2Step r (p1Mods r) ≠ []) :
    extract_file_modifications r = p4Step r (p2Step r (p1Mods r)) := by
  unfold extract_file_modifications p3Step
  rw [if_neg h]

/-- Witness for the amended C4 at the concrete response `c4resp`. -/
theorem claim_C4_witness :
    extract_file_modifications c4resp = p4Step c4resp (p2Step c4resp (p1Mods c4resp)) :=
  claim_C4_amended c4resp (by decide)

/-! ## Claim C5 -/

/-- A response whose explicit `FILE: Cargo.toml` entry (from a bare fenced
block) is later clobbered by the manifest fallback picking up a stray
toml-tagged block. -/
def c5resp : Str :=
  "FILE: Cargo.toml\n```\n[package]\nname = \"x\"\n```\n```toml\nB\n```".data

/-- Claim C5, counterexample: the explicit-path strategy maps `Cargo.toml`
to the bare-block content, but the manifest fallback overwrites that entry
with the first toml-tagged block, so the returned PatchSet does not keep
the strategy-1 content. -/
theorem claim_C5_counterexample :
    p1Mods c5resp = [("Cargo.toml".data, "[package]\nname = \"x\"".data)] ∧
    extract_file_modifications c5resp = [("Cargo.toml".data, "B".data)] ∧
    ("B".data : Str) ≠ "[package]\nname = \"x\"".data := by
  exact ⟨by decide, by decide, by decide⟩

/-- Claim C5, amended: whenever the response contains any toml-tagged
fenced block, the manifest fallback assigns the first such block (trimmed)
to `Cargo.toml`, overwriting any entry already present under that key
(including one produced by the explicit-path strategy). -/
theorem claim_C5_amended (r : Str) (m : FMap) (b : Str) (bs : List Str)
    (h : findBlocks "toml".data r = b :: bs) :
    lookupA (p4Step r m) "Cargo.toml".data = some (stripPy b) := by
  unfold p4Step
  rw [h]
  exact lookupA_upsert_self m "Cargo.toml".data (stripPy b)

/-- Witness for the amended C5 at the concrete response `c5resp`. -/
theorem claim_C5_witness :
    lookupA (p4Step c5resp (p1Mods c5resp)) "Cargo.toml".data =
      some (stripPy "B\n".data) :=
  claim_C5_amended c5resp (p1Mods c5resp) "B\n".data [] (by decide)

/-! ## Claim C7 -/

/-- Real code above the length threshold that also prints the greeting. -/
def c7code : Str :=
  ("use std::io::Write;\nfn main() \x7b\n    let values = vec![1, 2, 3, 4, 5];\n" ++
   "    let total: i32 = values.iter().sum();\n    println!(\"Total: \x7b\x7d\", total);\n" ++
   "    println!(\"Hello, world!\");\n\x7d\n").data

/-- The same code without the greeting line. -/
def c7codeNoGreet : Str :=
  ("use std::io::Write;\nfn main() \x7b\n    let values = vec![1, 2, 3, 4, 5];\n" ++
   "    let total: i32 = values.iter().sum();\n    println!(\"Total: \x7b\x7d\", total);\n\x7d\n").data

set_option maxRecDepth 20000 in
/-- Claim C7, counterexample: a candidate far above the minimum length that
contains the greeting print statement alongside substantial other code is
rejected — the greeting marker is searched anywhere in the candidate, not
only in greeting-only programs; removing the greeting line makes the same
candidate pass. -/
theorem claim_C7_counterexample :
    100 < (stripPy c7code).length ∧
    is_placeholder_code c7code = true ∧
    is_placeholder_code c7codeNoGreet = false := by
  exact ⟨by decide, by decide, by decide⟩

/-- Claim C7, amended: the placeholder rejection fires on the fixed markers
searched anywhere in the candidate — in particular any candidate containing
the greeting print statement is rejected regardless of its length and of
any other code it contains — or on the short-code rule (below the minimum
length and containing `println!` with fewer than ten line breaks). -/
theorem claim_C7_amended (pre post : Str) :
    is_placeholder_code (pre ++ greet1 ++ post) = true := by
  have h : hasSubCI greet1 (pre ++ (greet1 ++ post)) = true := by
    have h0 := hasSubCI_mid pre greet1 post
    simpa [List.append_assoc] using h0
  simp [is_placeholder_code, h]

/-! ## Claim C6 -/

/-- Two rust-tagged fenced blocks of different lengths, both passing the
placeholder classifier, but both below the separate minimum-length filter. -/
def c6resp : Str := "```rust\nabc\n```\n```rust\nabcdef\n```".data

/-- Claim C6, counterexample: both fenced blocks pass the placeholder
classifier and have different lengths, yet `extract_from_text` returns
none rather than the longer block — the length filter
(`len(m.strip()) > MIN_CODE_LENGTH`) is applied separately from the
placeholder filter and discards both candidates. -/
theorem claim_C6_counterexample :
    findBlocks "rust".data c6resp = ["abc\n".data, "abcdef\n".data] ∧
    is_placeholder_code "abc\n".data = false ∧
    is_placeholder_code "abcdef\n".data = false ∧
    ("abc\n".data : Str).length ≠ ("abcdef\n".data : Str).length ∧
    extract_from_text c6resp = none := by
  exact ⟨by decide, by decide, by decide, by decide, by decide⟩

/-- Claim C6, amended: when the response's rust-tagged fenced blocks are
exactly two blocks of different lengths — in either order — that pass the
placeholder filter AND whose trimmed contents exceed the 100-character
minimum length, `extract_from_text` returns the longer of the two
(trimmed), selected by character count. -/
theorem claim_C6_amended (text b1 b2 : Str)
    (hfind : findBlocks "rust".data text = [b1, b2])
    (h1 : 100 < (stripPy b1).length) (h2 : 100 < (stripPy b2).length)
    (hp1 : is_placeholder_code b1 = false) (hp2 : is_placeholder_code b2 = false)
    (_hlen : b1.length ≠ b2.length) :
    extract_from_text text =
      some (stripPy (if b1.length < b2.length then b2 else b1)) := by
  have f1 : (decide (100 < (stripPy b1).length) && !(is_placeholder_code b1)) = true := by
    rw [hp1, decide_eq_true h1]
    rfl
  have f2 : (decide (100 < (stripPy b2).length) && !(is_placeholder_code b2)) = true := by
    rw [hp2, decide_eq_true h2]
    rfl
  have hfilter : ([b1, b2].filter fun m =>
      decide (100 < (stripPy m).length) && !(is_placeholder_code m)) = [b1, b2] := by
    simp only [List.filter_cons, f1, f2, if_pos trivial, List.filter_nil]
  have hmax : maxByLen [b1, b2] = if b1.length < b2.length then b2 else b1 := by
    simp [maxByLen]
  simp only [extract_from_text]
  rw [hfind, hfilter]
  rw [if_neg (by simp)]
  rw [hmax]

def c6wA : Str := List.replicate 110 'a'
def c6wB : Str := List.replicate 120 'b'

/-- Concrete witness response: two long rust blocks of different lengths,
the longer one first. -/
def c6wText : Str :=
  "```rust\n".data ++ c6wB ++ "\n```\n```rust\n".data ++ c6wA ++ "\n```".data

set_option maxRecDepth 100000 in
/-- Witness for the amended C6 at the concrete response `c6wText`: the
longer block appears first and is the one returned. -/
theorem claim_C6_witness :
    extract_from_text c6wText = some (stripPy (c6wB ++ ['\n'])) := by
  have h := claim_C6_amended c6wText (c6wB ++ ['\n']) (c6wA ++ ['\n'])
    (by decide) (by decide) (by decide) (by decide) (by decide) (by decide)
  have hif : (if (c6wB ++ ['\n']).length < (c6wA ++ ['\n']).length then
      c6wA ++ ['\n'] else c6wB ++ ['\n']) = c6wB ++ ['\n'] := by decide
  rw [hif] at h
  exact h

/-! ## Claim C8 -/

/-- A DependencySet whose name contains a newline. -/
def c8deps : List (Str × Str) := [("a\nb".data, "1".data)]

def c8content : Str := "[dependencies]\n".data

/-- Claim C8, counterexample: merging a DependencySet whose name contains a
newline is not idempotent — the inserted line splits into two manifest
lines, the name is then never found again, and a second merge inserts the
same line once more. -/
theorem claim_C8_counterexample :
    update_cargo_dependencies (update_cargo_dependencies c8content c8deps) c8deps ≠
      update_cargo_dependencies c8content c8deps := by
  decide

/-- Any manifest containing the `[dependencies]` header and every
dependency name as a substring is a fixed point of the merge. -/
theorem update_fixpoint (c1 : Str) (deps : List (Str × Str)) (hd : deps ≠ [])
    (hh : hasSub depHdr c1 = true)
    (hdeps : ∀ nv ∈ deps, ('\n' : Char) ∉ nv.1 ∧ hasSub nv.1 c1 = true) :
    update_cargo_dependencies c1 deps = c1 := by
  unfold update_cargo_dependencies
  rw [if_neg hd, if_pos hh]
  have hins : addDepLines (splitNL c1) deps = [] := by
    apply addDepLines_eq_nil
    intro nv hnv
    obtain ⟨hnl, hsub⟩ := hdeps nv hnv
    obtain ⟨l, hl, hsl⟩ := hasSub_to_line c1 nv.1 hnl hsub
    exact List.any_eq_true.mpr ⟨l, hl, hsl⟩
  rw [hins, insertAfterHdr_nil_ins, joinNL_splitNL]

/-- Claim C8, amended: the dependency merge is idempotent for every
manifest content and every DependencySet whose names contain no newline
character (as every set produced by the dependency extractor does): the
second application adds no entries. -/
theorem claim_C8_amended (c : Str) (deps : List (Str × Str))
    (hnl : ∀ nv ∈ deps, ('\n' : Char) ∉ nv.1) :
    update_cargo_dependencies (update_cargo_dependencies c deps) deps =
      update_cargo_dependencies c deps := by
  by_cases hd : deps = []
  · subst hd
    simp [update_cargo_dependencies]
  · by_cases hh : hasSub depHdr c = true
    · by_cases hline : ∃ l ∈ splitNL c, stripPy l = depHdr
      · have hc1 : update_cargo_dependencies c deps =
            joinNL (insertAfterHdr (splitNL c) (addDepLines (splitNL c) deps) false) := by
          unfold update_cargo_dependencies
          rw [if_neg hd, if_pos hh]
        rw [hc1]
        apply update_fixpoint _ deps hd
        · obtain ⟨l0, hl0, hs0⟩ := hline
          have hsubl : hasSub depHdr l0 = true := by
            obtain ⟨a, b, hab⟩ := stripPy_decomp l0
            rw [hs0] at hab
            exact (hasSub_iff depHdr l0).mpr ⟨a, b, hab⟩
          exact hasSub_joinNL_of_mem _ l0 depHdr
            (mem_insertAfterHdr (splitNL c) l0 hl0 _ false) hsubl
        · intro nv hnv
          refine ⟨hnl nv hnv, ?_⟩
          cases hany : ((splitNL c).any fun l => hasSub nv.1 l) with
          | true =>
            obtain ⟨l, hl, hsl⟩ := List.any_eq_true.mp hany
            exact hasSub_joinNL_of_mem _ l nv.1
              (mem_insertAfterHdr (splitNL c) l hl _ false) hsl
          | false =>
            have hmem : depLine nv ∈ addDepLines (splitNL c) deps :=
              mem_addDepLines (splitNL c) deps nv hnv hany
            have hmem2 : depLine nv ∈
                insertAfterHdr (splitNL c) (addDepLines (splitNL c) deps) false :=
              ins_mem_insertAfterHdr (splitNL c) hline _ _ hmem
            have hsubd : hasSub nv.1 (depLine nv) = true :=
              (hasSub_iff _ _).mpr ⟨[], " = \"".data ++ nv.2 ++ "\"".data, by simp [depLine]⟩
            exact hasSub_joinNL_of_mem _ _ nv.1 hmem2 hsubd
      · have hins0 : insertAfterHdr (splitNL c) (addDepLines (splitNL c) deps) false =
            splitNL c := by
          apply insertAfterHdr_no_hdr
          intro l hl hsl
          exact hline ⟨l, hl, hsl⟩
        have hc1 : update_cargo_dependencies c deps = c := by
          unfold update_cargo_dependencies
          rw [if_neg hd, if_pos hh, hins0, joinNL_splitNL]
        rw [hc1, hc1]
    · have hc1 : update_cargo_dependencies c deps =
          c ++ '\n' :: depHdr ++ '\n' ::
            (deps.map fun nv => depLine nv ++ ['\n']).flatten := by
        unfold update_cargo_dependencies
        rw [if_neg hd, if_neg hh, foldl_depLines]
        simp
      rw [hc1]
      apply update_fixpoint _ deps hd
      · refine (hasSub_iff _ _).mpr ⟨c ++ ['\n'], '\n' ::
          (deps.map fun nv => depLine nv ++ ['\n']).flatten, ?_⟩
        simp
      · intro nv hnv
        refine ⟨hnl nv hnv, ?_⟩
        have hmem : (depLine nv ++ ['\n']) ∈ (deps.map fun nv => depLine nv ++ ['\n']) :=
          List.mem_map_of_mem _ hnv
        obtain ⟨a, b, hab⟩ := mem_join_decomp _ _ hmem
        rw [hab]
        refine (hasSub_iff _ _).mpr
          ⟨c ++ '\n' :: depHdr ++ '\n' :: a,
           " = \"".data ++ nv.2 ++ "\"".data ++ '\n' :: b, ?_⟩
        simp [depLine, List.append_assoc]

/-- Witness for the amended C8: a newline-free DependencySet merged twice. -/
theorem claim_C8_witness :
    update_cargo_dependencies (update_cargo_dependencies "[package]".data
        [("serde".data, "1.0".data)]) [("serde".data, "1.0".data)] =
      update_cargo_dependencies "[package]".data [("serde".data, "1.0".data)] :=
  claim_C8_amended "[package]".data [("serde".data, "1.0".data)] (by decide)

/-! ## Claim C9 -/

def c9fs : FMap := [("a".data, "OLD".data)]

/-- The run of `write_file_content` on which the write raises after one
character has been written (the file was already truncated by `open`). -/
def c9run : Bool × FMap :=
  write_file_content c9fs "a".data "NEW".data (.failWrite 1)

/-- Claim C9, counterexample: a write that fails mid-write reports failure
but leaves the target file holding partial content (here the single
character `N`), neither the prior content nor the new content — the
open-for-write call truncates before any data is written, so the operation
is not atomic. -/
theorem claim_C9_counterexample :
    ¬ ((c9run.1 = true ∧ lookupA c9run.2 "a".data = some "NEW".data) ∨
       (c9run.1 = false ∧ lookupA c9run.2 "a".data = lookupA c9fs "a".data)) := by
  decide

/-- Claim C9, amended: a store write either succeeds and the target holds
exactly the new full content, or fails; on failure the target holds the
prior content (failure before the file was opened) or some prefix of the
new content (failure after open-for-write truncated the file) — it can be
left with partial content. -/
theorem claim_C9_amended (fs : FMap) (p c : Str) (o : WriteOutcome) :
    ((write_file_content fs p c o).1 = true ∧
      lookupA (write_file_content fs p c o).2 p = some c) ∨
    ((write_file_content fs p c o).1 = false ∧
      (lookupA (write_file_content fs p c o).2 p = lookupA fs p ∨
       ∃ k, lookupA (write_file_content fs p c o).2 p = some (c.take k))) := by
  cases o with
  | ok => exact Or.inl ⟨rfl, lookupA_upsert_self fs p c⟩
  | failMkdir => exact Or.inr ⟨rfl, Or.inl rfl⟩
  | failOpen => exact Or.inr ⟨rfl, Or.inl rfl⟩
  | failWrite k => exact Or.inr ⟨rfl, Or.inr ⟨k, lookupA_upsert_self fs p (c.take k)⟩⟩

/-! ## Claim C1 -/

theorem autoFixGo_allFail (env : Env) (maxIter : Int)
    (hb : ∀ fs i, (env.build fs i).1 = false)
    (ho : ∀ fs o i m r, env.oracle fs o i m = .ok r →
      extract_file_modifications r = []) :
    ∀ (fuel : Nat) (fs : FMap) (it : Int) (out : Option Str) (bc : Nat),
      0 < fuel → it + (fuel : Int) = maxIter →
      autoFixGo env maxIter fuel fs it out bc =
        (.ok (false, (env.build fs maxIter).2, maxIter), fs, bc + fuel) := by
  intro fuel
  induction fuel with
  | zero => intro fs it out bc h0 _; omega
  | succ n ih =>
    intro fs it out bc _ hsum
    simp only [autoFixGo]
    cases hb' : env.build fs (it + 1) with
    | mk bsucc outp =>
      have hbf : bsucc = false := by
        have hb0 := hb fs (it + 1); rw [hb'] at hb0; exact hb0
      subst hbf
      dsimp only
      by_cases hlt : it + 1 < maxIter
      · rw [if_pos hlt]
        have hn : 0 < n := by omega
        have hsum' : it + 1 + (n : Int) = maxIter := by push_cast at hsum ⊢; omega
        have hbc : bc + 1 + n = bc + (n + 1) := by omega
        cases horc : env.oracle fs outp (it + 1) maxIter with
        | error e =>
          dsimp only
          rw [ih fs (it + 1) (some outp) (bc + 1) hn hsum', hbc]
        | ok resp =>
          dsimp only
          have hm := ho fs outp (it + 1) maxIter resp horc
          rw [hm]
          dsimp only
          rw [ih fs (it + 1) (some outp) (bc + 1) hn hsum', hbc]
      · rw [if_neg hlt]
        have hn : n = 0 := by omega
        subst hn
        simp only [autoFixGo]
        have hit : it + 1 = maxIter := by push_cast at hsum; omega
        rw [hit] at hb' ⊢
        rw [hb']

/-- Claim C1: with a positive iteration budget, when every build invocation
fails and every oracle reply yields an empty PatchSet (and oracle
exceptions are allowed), `auto_fix_rust_project` performs exactly
`max_iterations` build invocations, leaves the project tree untouched, and
returns success = false, the transcript of the last (that is the
`max_iterations`-th) failed build, and iterationsUsed = `max_iterations`;
no other exit path exists. -/
theorem claim_C1 (env : Env) (maxIter : Int) (fs0 : FMap)
    (hpos : 1 ≤ maxIter)
    (hb : ∀ fs i, (env.build fs i).1 = false)
    (ho : ∀ fs o i m r, env.oracle fs o i m = .ok r →
      extract_file_modifications r = []) :
    auto_fix_rust_project env maxIter fs0 =
      (.ok (false, (env.build fs0 maxIter).2, maxIter), fs0, maxIter.toNat) := by
  have h1 : 0 < maxIter.toNat := by omega
  have h2 : (0 : Int) + (maxIter.toNat : Int) = maxIter := by omega
  have h := autoFixGo_allFail env maxIter hb ho maxIter.toNat fs0 0 none 0 h1 h2
  simpa [auto_fix_rust_project] using h

/-- Witness for C1: the always-failing stub with budget 2 uses exactly 2
build attempts and reports failure with the last transcript. -/
theorem claim_C1_witness :
    auto_fix_rust_project stubEnv 2 [] = (.ok (false, [], 2), [], 2) := by
  have h := claim_C1 stubEnv 2 [] (by decide) (fun _ _ => rfl)
    (fun fs o i m r hr => by
      injection hr with h2
      exact h2 ▸ rfl)
  simpa using h

/-! ## Claim C2 -/

theorem autoFixGo_errToEmpty (env : Env) (maxIter : Int) :
    ∀ (fuel : Nat) (fs : FMap) (it : Int) (out : Option Str) (bc : Nat),
      autoFixGo env maxIter fuel fs it out bc =
        autoFixGo (oracleErrToEmpty env) maxIter fuel fs it out bc := by
  intro fuel
  induction fuel with
  | zero => intro fs it out bc; rfl
  | succ n ih =>
    intro fs it out bc
    simp only [autoFixGo]
    have hbuild : (oracleErrToEmpty env).build = env.build := rfl
    rw [hbuild]
    cases hb' : env.build fs (it + 1) with
    | mk bsucc outp =>
      cases bsucc with
      | true => rfl
      | false =>
        dsimp only
        by_cases hlt : it + 1 < maxIter
        · rw [if_pos hlt, if_pos hlt]
          have horc : (oracleErrToEmpty env).oracle fs outp (it + 1) maxIter =
              match env.oracle fs outp (it + 1) maxIter with
              | .error _ => .ok []
              | .ok r => .ok r := rfl
          rw [horc]
          cases env.oracle fs outp (it + 1) maxIter with
          | error e =>
            dsimp only
            exact ih fs (it + 1) (some outp) (bc + 1)
          | ok resp =>
            dsimp only
            cases extract_file_modifications resp with
            | nil => exact ih fs (it + 1) (some outp) (bc + 1)
            | cons m ms => exact ih (applyMods fs (m :: ms)) (it + 1) (some outp) (bc + 1)
        · rw [if_neg hlt, if_neg hlt]
          exact ih fs (it + 1) (some outp) (bc + 1)

/-- Claim C2: an oracle round-trip that raises is caught and the iteration
behaves exactly as one whose extracted PatchSet is empty — the whole run of
`auto_fix_rust_project` (result, final project tree, build count) equals
the run in which every raised exception is replaced by an empty reply,
whose PatchSet extraction yields the empty dict; in particular no file is
modified in such an iteration, the iteration still counts against the
budget, and the exception never reaches the caller. -/
theorem claim_C2 (env : Env) (maxIter : Int) (fs : FMap) :
    auto_fix_rust_project env maxIter fs =
      auto_fix_rust_project (oracleErrToEmpty env) maxIter fs :=
  autoFixGo_errToEmpty env maxIter maxIter.toNat fs 0 none 0

/-! ## Claim C10 -/

/-- Claim C10: called with `max_iterations <= 0` the loop body never runs,
so the local holding the last build transcript is never assigned and the
final return raises `UnboundLocalError` instead of producing a triple. -/
theorem claim_C10 (env : Env) (maxIter : Int) (fs : FMap) (h : maxIter ≤ 0) :
    (auto_fix_rust_project env maxIter fs).1 = .error .unboundLocalError := by
  have h0 : maxIter.toNat = 0 := by omega
  simp [auto_fix_rust_project, h0, autoFixGo]

/-- Witness for C10 at `max_iterations = 0` with the stub environment. -/
theorem claim_C10_witness :
    (auto_fix_rust_project stubEnv 0 []).1 = .error .unboundLocalError :=
  claim_C10 stubEnv 0 [] (by decide)

end RewriteRs
